import Mathlib

/-!
Verification model of `src/Lex/MacroArgs.h` (clang `MacroArgs`: formal-argument
bindings of one function-like macro invocation).

The header in `src/` is declaration-only: the data members, their doc comments
and the two inline accessors (`getNumArguments`, `isVarargsElidedUse`) are the
only code present; the bodies of `create`, `destroy`, `getUnexpArgument`,
`getArgLength`, `getPreExpArgument`, `getStringifiedArgument` and
`StringifyArgument` are not in the repository.  Definitions below that embed
those missing bodies are modelled from the spec and carry a doc comment saying
so; everything else is translated from the header itself.
-/

namespace MacroArgsModel

/-- Kind of a lexical token.  The model keeps only the distinctions the spec
uses: the EOF-marker sentinel that delimits arguments inside the shared raw
buffer, string/character literals (whose spellings get escaped by
stringizing), and everything else. -/
inductive TokenKind where
  | eof
  | stringLit
  | charLit
  | ident
  | punct
deriving DecidableEq, Repr

/-- External `Token` type (spec §3): spelling, kind, whitespace-before flag and
a source range (`SourceLocation` is modelled as `Nat`). -/
structure Token where
  spelling : String
  kind : TokenKind
  hasLeadingSpace : Bool
  locStart : Nat
  locEnd : Nat
deriving DecidableEq, Repr

/-- Canonical EOF-marker token used as the per-argument delimiter. -/
def eofTok : Token :=
  { spelling := "", kind := TokenKind.eof, hasLeadingSpace := false,
    locStart := 0, locEnd := 0 }

/-- Number of EOF-marker tokens in a buffer: for a correctly delimited raw
buffer this is the number of arguments it holds. -/
def countEofToks : List Token → Nat
  | [] => 0
  | t :: ts => (if t.kind = TokenKind.eof then 1 else 0) + countEofToks ts

/-- Build the shared raw-token buffer from the per-argument token runs: each
argument's tokens followed by one EOF marker (spec §3, token-supplier
contract §6). -/
def flattenArgs : List (List Token) → List Token
  | [] => []
  | a :: rest => a ++ eofTok :: flattenArgs rest

/-- One argument run contains no EOF marker of its own. -/
def eofFree (a : List Token) : Bool :=
  a.all (fun t => !(t.kind == TokenKind.eof))

/-- All argument runs are EOF-free. -/
def argsEofFree (args : List (List Token)) : Bool :=
  args.all eofFree

/-- Skip forward past `n` EOF-delimited runs from the start of a buffer
(spec §4.2: how `getUnexpArgument` locates the `index`-th run). -/
def dropRuns : Nat → List Token → List Token
  | 0, ts => ts
  | _ + 1, [] => []
  | n + 1, t :: ts =>
      if t.kind = TokenKind.eof then dropRuns n ts else dropRuns (n + 1) ts

/-- Tokens of the current run: everything before the next EOF marker. -/
def takeUntilEof (ts : List Token) : List Token :=
  ts.takeWhile (fun t => !(t.kind == TokenKind.eof))

/-- Lengths of the complete (EOF-terminated) runs of a buffer; `acc` counts
the tokens of the current run already passed. -/
def argumentLengthsAux : List Token → Nat → List Nat
  | [], _ => []
  | t :: ts, acc =>
      if t.kind = TokenKind.eof then acc :: argumentLengthsAux ts 0
      else argumentLengthsAux ts (acc + 1)

/-- Lengths of the EOF-terminated argument runs of a buffer (each length
excludes the EOF marker). -/
def argumentLengths (raw : List Token) : List Nat :=
  argumentLengthsAux raw 0

/-- Sum of `length + 1` over a list of argument lengths (spec §3 invariant:
`len(rawTokens) == Σ over arguments (argument length + 1)`). -/
def sumPlusOne : List Nat → Nat
  | [] => 0
  | n :: ns => n + 1 + sumPlusOne ns

/-- MacroArgs record, translated from the data members of
`src/Lex/MacroArgs.h` (lines 32-62):
`NumUnexpArgTokens` is "the number of raw, unexpanded tokens for the
arguments ... all of the arguments concatenated together, with EOF markers at
the end of each argument"; `VarargsElided` the elision flag;
`PreExpArgTokens` the per-argument pre-expansion cache, an entry being "empty
if not yet computed" (so in the model an empty list at index `i` means
"absent"); `StringifiedArgs` the stringized cache, whose per-entry
presence discipline is not in src and is modelled from the spec as an
`Option` ("entries absent until computed", spec §3).  The trailing in-memory
token buffer is modelled as the list `rawTokens`, and the buffer's allocated
capacity (used by the free-list search, spec §4.1) as `capacity`; the
intrusive `ArgCache` next-pointer is represented by membership in the pool
state's `freeList` below. -/
structure MacroArgs where
  NumUnexpArgTokens : Nat
  VarargsElided : Bool
  PreExpArgTokens : List (List Token)
  StringifiedArgs : List (Option Token)
  rawTokens : List Token
  capacity : Nat
deriving DecidableEq, Repr

/-- Pool Allocator state (spec §3, §4.1): the free list of retired records
(head = most recently retired), plus a count of fresh buffer allocations so
that "no fresh buffer is allocated" is observable in the model. -/
structure PoolState where
  freeList : List MacroArgs
  freshAllocs : Nat
deriving DecidableEq, Repr

/-- Empty pool. -/
def emptyPool : PoolState := { freeList := [], freshAllocs := 0 }

/-- getNumArguments, translated from src lines 106-111: the body returns the
`NumUnexpArgTokens` field. -/
def MacroArgs.getNumArguments (r : MacroArgs) : Nat :=
  r.NumUnexpArgTokens

/-- isVarargsElidedUse, translated from src lines 114-122: returns the
`VarargsElided` flag. -/
def MacroArgs.isVarargsElidedUse (r : MacroArgs) : Bool :=
  r.VarargsElided

/-- Value of the `VarargsElided` flag as documented on the field
(src lines 40-45); the caller that computes it is outside src.  It is true
iff this is a C99-style varargs invocation with no argument specified for
the "..." parameter, except that in strict mode a C99 varargs macro that had
only a "..." argument also records false. -/
def varargsElidedFlag (isC99Varargs argWasSpecified strictMode
    onlyVarargArgument : Bool) : Bool :=
  isC99Varargs && !argWasSpecified && !(strictMode && onlyVarargArgument)

/-- Modelled from the spec: the body of `MacroArgs::create` is not in src
(declaration only, lines 73-75).  Spec §4.1: search the free list for the
smallest retired record whose buffer capacity is at least the required token
capacity; if found, remove it from the list and return it together with the
remaining list.  Ties keep the record closest to the head, matching a
head-to-tail scan that only replaces the candidate on a strictly smaller
capacity. -/
def popSmallestFit (req : Nat) : List MacroArgs → Option (MacroArgs × List MacroArgs)
  | [] => none
  | r :: rest =>
    match popSmallestFit req rest with
    | none => if req ≤ r.capacity then some (r, rest) else none
    | some (b, rest2) =>
        if req ≤ r.capacity ∧ r.capacity ≤ b.capacity then some (r, rest)
        else some (b, r :: rest2)

/-- Modelled from the spec: the body of `MacroArgs::create` is not in src
(declaration only, lines 73-75).  Spec §4.1: reuse the smallest fitting
retired record (overwriting its buffer and resetting both caches) or, when
none fits, allocate a fresh record sized exactly to the required capacity;
the result's argument count is derived from the EOF-marker partitioning of
the raw tokens.  The required token capacity is the length of the supplied
raw-token run. -/
def MacroArgs.create (rawToks : List Token) (ve : Bool) (st : PoolState) :
    MacroArgs × PoolState :=
  let nArgs := countEofToks rawToks
  match popSmallestFit rawToks.length st.freeList with
  | some (r, rest) =>
      ({ NumUnexpArgTokens := rawToks.length, VarargsElided := ve,
         PreExpArgTokens := List.replicate nArgs [],
         StringifiedArgs := List.replicate nArgs none,
         rawTokens := rawToks, capacity := r.capacity },
       { st with freeList := rest })
  | none =>
      ({ NumUnexpArgTokens := rawToks.length, VarargsElided := ve,
         PreExpArgTokens := List.replicate nArgs [],
         StringifiedArgs := List.replicate nArgs none,
         rawTokens := rawToks, capacity := rawToks.length },
       { st with freshAllocs := st.freshAllocs + 1 })

/-- Modelled from the spec: the body of `MacroArgs::destroy` is not in src
(declaration only, line 79).  Spec §4.1: clear both caches, dropping any
cached token sequences; the buffer memory (and hence `rawTokens` and
`capacity`) is not released. -/
def MacroArgs.clearCaches (r : MacroArgs) : MacroArgs :=
  { r with
    PreExpArgTokens := List.replicate r.PreExpArgTokens.length [],
    StringifiedArgs := List.replicate r.StringifiedArgs.length none }

/-- Modelled from the spec: the body of `MacroArgs::destroy` is not in src
(declaration only, line 79).  Spec §4.1: clear both caches and push the
record onto the free-list head; never release the underlying buffer memory
here. -/
def MacroArgs.destroy (r : MacroArgs) (st : PoolState) : PoolState :=
  { st with freeList := r.clearCaches :: st.freeList }

/-- Modelled from the spec: the body of `MacroArgs::getUnexpArgument` is not
in src (declaration only, line 88).  Spec §4.2: return the position of the
`i`-th token run inside the raw buffer, found by scanning forward past `i`
EOF-delimited runs; the returned pointer is modelled as the corresponding
suffix of the buffer. -/
def MacroArgs.getUnexpArgument (r : MacroArgs) (i : Nat) : List Token :=
  dropRuns i r.rawTokens

/-- Modelled from the spec: the body of `MacroArgs::getArgLength` is not in
src (declaration only, line 93).  Spec §4.2: count tokens from the start of
a run until, but excluding, the next EOF marker. -/
def MacroArgs.getArgLength : List Token → Nat
  | [] => 0
  | t :: ts => if t.kind = TokenKind.eof then 0 else MacroArgs.getArgLength ts + 1

/-- Modelled from the spec: the body of `MacroArgs::getPreExpArgument` is not
in src (declaration only, lines 97-98).  Spec §4.4: on a cache hit (the
entry for `i` is nonempty — src lines 47-49 document an empty entry as "not
yet computed") return it unchanged with no expansion work; otherwise extract
argument `i`'s raw run, hand it to the external expansion engine `expand`
(the collaborator of §6, modelled as a function argument), store the
EOF-terminated result and return it.  The third component counts expansion
engine invocations performed by this call. -/
def MacroArgs.getPreExpArgument (r : MacroArgs) (i : Nat)
    (expand : List Token → List Token) : List Token × MacroArgs × Nat :=
  let cached := r.PreExpArgTokens.getD i []
  if cached.isEmpty then
    let run := takeUntilEof (dropRuns i r.rawTokens)
    let res := expand run ++ [eofTok]
    (res, { r with PreExpArgTokens := r.PreExpArgTokens.set i res }, 1)
  else
    (cached, r, 0)

/-- Escape a literal token's spelling: every backslash and double quote gets
a preceding backslash (spec §4.5). -/
def escapeChars : List Char → List Char
  | [] => []
  | c :: cs =>
      if c = '\\' ∨ c = '"' then '\\' :: c :: escapeChars cs
      else c :: escapeChars cs

/-- String form of `escapeChars`. -/
def escapeLiteralSpelling (s : String) : String :=
  String.mk (escapeChars s.data)

/-- Text a token contributes to the stringized body: string- and
character-literal spellings are escaped, all other spellings are taken
verbatim (spec §4.5). -/
def tokenStringText (t : Token) : String :=
  if t.kind = TokenKind.stringLit ∨ t.kind = TokenKind.charLit then
    escapeLiteralSpelling t.spelling
  else t.spelling

/-- Tail of the stringized body: `prev` is the previous token already
emitted; a space is inserted before the next token exactly when it was
preceded by whitespace in the source or the external paste-safety oracle
`ac` says the pair would be unsafe to paste (spec §4.5).  Processing stops
at the EOF marker. -/
def stringifyLoop (ac : Token → Token → Bool) (prev : Token) :
    List Token → String
  | [] => ""
  | t :: ts =>
      if t.kind = TokenKind.eof then ""
      else
        (if t.hasLeadingSpace || ac prev t then " " else "") ++
          tokenStringText t ++ stringifyLoop ac t ts

/-- Concatenated, escaped body of the stringized argument: spellings in
order, with exactly one space between adjacent tokens that were
whitespace-separated or unsafe to paste; no space before the first token
(spec §4.5). -/
def stringifyBody (ac : Token → Token → Bool) : List Token → String
  | [] => ""
  | t :: ts =>
      if t.kind = TokenKind.eof then ""
      else tokenStringText t ++ stringifyLoop ac t ts

/-- Count of leading backslashes. -/
def leadingBackslashes : List Char → Nat
  | [] => 0
  | c :: cs => if c = '\\' then leadingBackslashes cs + 1 else 0

/-- Count of trailing backslashes of a string. -/
def trailingBackslashes (s : String) : Nat :=
  leadingBackslashes s.data.reverse

/-- Recoverable diagnostics the Stringizer reports to the external
diagnostic sink (spec §4.5, §7). -/
inductive PPDiag where
  | invalidLiteral
deriving DecidableEq, Repr

/-- The double-quote character as a string. -/
def dquote : String := String.mk ['"']

/-- The single-quote character as a string. -/
def squote : String := String.mk [Char.ofNat 39]

/-- Modelled from the spec: the body of `MacroArgs::StringifyArgument` is not
in src (declaration only, lines 129-132).  Spec §4.5: build the concatenated
escaped body of the run (up to its EOF marker); if the body would end in an
unescaped backslash (an odd run of trailing backslashes) the text is a
malformed literal: report a recoverable diagnostic to the external sink and
drop the offending character as the best effort; wrap the text in double
quotes as one string-literal token, or in single quotes as one
character-literal token when `charify` is set, carrying
`locStart`/`locEnd` as the reported source range.  The second component is
the list of diagnostics sent to the sink. -/
def MacroArgs.StringifyArgument (argToks : List Token)
    (ac : Token → Token → Bool) (charify : Bool) (locStart locEnd : Nat) :
    Token × List PPDiag :=
  let body := stringifyBody ac argToks
  let trimmed :=
    if trailingBackslashes body % 2 = 1 then
      (String.mk body.data.dropLast, [PPDiag.invalidLiteral])
    else (body, [])
  let q := if charify then squote else dquote
  ({ spelling := q ++ trimmed.1 ++ q,
     kind := if charify then TokenKind.charLit else TokenKind.stringLit,
     hasLeadingSpace := false, locStart := locStart, locEnd := locEnd },
   trimmed.2)

/-- Modelled from the spec: the body of `MacroArgs::getStringifiedArgument`
is not in src (declaration only, lines 102-104).  Spec §4.5: on first call
for `i`, locate the raw run, stringize it (the `#` operator, so
`charify = false`) and store the single resulting token in the cache; on
subsequent calls return the cached token unconditionally, ignoring the
source-location arguments. -/
def MacroArgs.getStringifiedArgument (r : MacroArgs) (i : Nat)
    (ac : Token → Token → Bool) (locStart locEnd : Nat) : Token × MacroArgs :=
  match r.StringifiedArgs.getD i none with
  | some t => (t, r)
  | none =>
      let t := (MacroArgs.StringifyArgument (dropRuns i r.rawTokens) ac false
        locStart locEnd).1
      (t, { r with StringifiedArgs := r.StringifiedArgs.set i (some t) })

/-- A pre-expansion cache entry is either absent (empty) or EOF-terminated
(spec §3 invariant on `preExpandedCache`). -/
def preExpEntryOK (e : List Token) : Bool :=
  e.isEmpty ||
    (match e.getLast? with
     | some t => t.kind == TokenKind.eof
     | none => false)

/-- Both caches of a record are empty: every pre-expansion entry absent
(empty, src lines 47-49) and every stringized entry absent. -/
def MacroArgs.cachesEmpty (r : MacroArgs) : Bool :=
  r.PreExpArgTokens.all List.isEmpty && r.StringifiedArgs.all Option.isNone

/-- Data-model invariants of an Argument Record (spec §3): the raw buffer's
length is the sum over its arguments of the argument length plus one (its
EOF marker); the `NumUnexpArgTokens` field counts the raw tokens (src lines
34-38); both caches have one slot per argument; and every present
pre-expansion entry is EOF-terminated (presence being nonemptiness, src
lines 47-49, which also encodes that a present entry is non-empty).  The
invariant that a stringized entry holds exactly one token is enforced by the
cache's type (`Option Token`), mirroring the `std::vector<Token>` element
type of src line 54. -/
def MacroArgs.WF (r : MacroArgs) : Prop :=
  r.rawTokens.length = sumPlusOne (argumentLengths r.rawTokens) ∧
  r.NumUnexpArgTokens = r.rawTokens.length ∧
  r.PreExpArgTokens.length = countEofToks r.rawTokens ∧
  r.StringifiedArgs.length = countEofToks r.rawTokens ∧
  r.PreExpArgTokens.all preExpEntryOK = true

/-! ### Basic cache-list lemmas -/

theorem getD_set_self {α : Type} (l : List α) (i : Nat) (a d : α)
    (h : i < l.length) : (l.set i a).getD i d = a := by
  simp [List.getD, List.getElem?_set_self, h]

theorem all_set {α : Type} {p : α → Bool} {l : List α} {a : α} (i : Nat)
    (hl : l.all p = true) (ha : p a = true) : (l.set i a).all p = true := by
  rw [List.all_eq_true] at hl ⊢
  intro x hx
  rcases List.mem_or_eq_of_mem_set hx with hmem | rfl
  · exact hl x hmem
  · exact ha

theorem all_replicate {α : Type} {p : α → Bool} {a : α} (n : Nat)
    (ha : p a = true) : (List.replicate n a).all p = true := by
  rw [List.all_eq_true]
  intro x hx
  rw [List.eq_of_mem_replicate hx]
  exact ha

/-! ### Buffer-partitioning lemmas -/

theorem getArgLength_append_eof (a rest : List Token) (ha : eofFree a = true) :
    MacroArgs.getArgLength (a ++ eofTok :: rest) = a.length := by
  induction a with
  | nil => simp [MacroArgs.getArgLength, eofTok]
  | cons t ts ih =>
      simp only [eofFree, List.all_cons, Bool.and_eq_true] at ha
      have ht : ¬ t.kind = TokenKind.eof := by
        intro h
        simp [h] at ha
      simp only [List.cons_append, MacroArgs.getArgLength, if_neg ht,
        List.append_eq]
      rw [ih (by simpa [eofFree] using ha.2)]
      simp

theorem dropRuns_append_eof (i : Nat) (a rest : List Token)
    (ha : eofFree a = true) :
    dropRuns (i + 1) (a ++ eofTok :: rest) = dropRuns i rest := by
  induction a with
  | nil => simp [dropRuns, eofTok]
  | cons t ts ih =>
      simp only [eofFree, List.all_cons, Bool.and_eq_true] at ha
      have ht : ¬ t.kind = TokenKind.eof := by
        intro h
        simp [h] at ha
      simp only [List.cons_append, dropRuns, if_neg ht]
      exact ih (by simpa [eofFree] using ha.2)

theorem getArgLength_dropRuns_flattenArgs (args : List (List Token)) (i : Nat)
    (hi : i < args.length) (hfree : argsEofFree args = true) :
    MacroArgs.getArgLength (dropRuns i (flattenArgs args)) =
      (args.get ⟨i, hi⟩).length := by
  induction args generalizing i with
  | nil => simp at hi
  | cons a rest ih =>
      simp only [argsEofFree, List.all_cons, Bool.and_eq_true] at hfree
      cases i with
      | zero =>
          simp only [flattenArgs, dropRuns, List.get]
          exact getArgLength_append_eof a (flattenArgs rest) hfree.1
      | succ j =>
          have hj : j < rest.length := by simpa using hi
          simp only [flattenArgs, List.get]
          rw [dropRuns_append_eof j a (flattenArgs rest) hfree.1]
          exact ih j hj (by simpa [argsEofFree] using hfree.2)

theorem countEofToks_append (xs ys : List Token) :
    countEofToks (xs ++ ys) = countEofToks xs + countEofToks ys := by
  induction xs with
  | nil => simp [countEofToks]
  | cons t ts ih => simp [countEofToks, ih]; omega

theorem countEofToks_eofFree (a : List Token) (ha : eofFree a = true) :
    countEofToks a = 0 := by
  induction a with
  | nil => rfl
  | cons t ts ih =>
      simp only [eofFree, List.all_cons, Bool.and_eq_true] at ha
      have ht : ¬ t.kind = TokenKind.eof := by
        intro h
        simp [h] at ha
      simp only [countEofToks, if_neg ht]
      simpa using ih (by simpa [eofFree] using ha.2)

theorem countEofToks_flattenArgs (args : List (List Token))
    (hfree : argsEofFree args = true) :
    countEofToks (flattenArgs args) = args.length := by
  induction args with
  | nil => rfl
  | cons a rest ih =>
      simp only [argsEofFree, List.all_cons, Bool.and_eq_true] at hfree
      have h1 : countEofToks (eofTok :: flattenArgs rest) =
          1 + countEofToks (flattenArgs rest) := by
        simp [countEofToks, eofTok]
      show countEofToks (a ++ eofTok :: flattenArgs rest) = rest.length + 1
      rw [countEofToks_append, countEofToks_eofFree a hfree.1, h1,
        ih (by simpa [argsEofFree] using hfree.2)]
      omega

theorem argumentLengthsAux_append_eof (a rest : List Token) (acc : Nat)
    (ha : eofFree a = true) :
    argumentLengthsAux (a ++ eofTok :: rest) acc =
      (acc + a.length) :: argumentLengthsAux rest 0 := by
  induction a generalizing acc with
  | nil => simp [argumentLengthsAux, eofTok]
  | cons t ts ih =>
      simp only [eofFree, List.all_cons, Bool.and_eq_true] at ha
      have ht : ¬ t.kind = TokenKind.eof := by
        intro h
        simp [h] at ha
      simp only [List.cons_append, argumentLengthsAux, if_neg ht,
        List.append_eq]
      rw [ih (acc + 1) (by simpa [eofFree] using ha.2)]
      simp [List.length_cons]
      omega

theorem argumentLengths_flattenArgs (args : List (List Token))
    (hfree : argsEofFree args = true) :
    argumentLengths (flattenArgs args) = args.map List.length := by
  induction args with
  | nil => rfl
  | cons a rest ih =>
      simp only [argsEofFree, List.all_cons, Bool.and_eq_true] at hfree
      simp only [flattenArgs, argumentLengths, List.map_cons]
      rw [argumentLengthsAux_append_eof a (flattenArgs rest) 0 hfree.1]
      have := ih (by simpa [argsEofFree] using hfree.2)
      simp only [argumentLengths] at this
      rw [this]
      simp

theorem length_flattenArgs (args : List (List Token)) :
    (flattenArgs args).length = sumPlusOne (args.map List.length) := by
  induction args with
  | nil => rfl
  | cons a rest ih =>
      simp only [flattenArgs, sumPlusOne, List.map_cons, List.length_append,
        List.length_cons, ih]
      omega

/-! ### Free-list search lemmas -/

theorem popSmallestFit_none_of_all (req : Nat) (fl : List MacroArgs)
    (h : ∀ x ∈ fl, x.capacity < req) : popSmallestFit req fl = none := by
  induction fl with
  | nil => rfl
  | cons r rest ih =>
      have hr : r.capacity < req := h r (List.mem_cons_self r rest)
      have hrest : popSmallestFit req rest = none :=
        ih (fun x hx => h x (List.mem_cons_of_mem r hx))
      simp [popSmallestFit, hrest, Nat.not_le.2 hr]

theorem popSmallestFit_isSome_of_mem (req : Nat) (fl : List MacroArgs)
    (x : MacroArgs) (hx : x ∈ fl) (hfit : req ≤ x.capacity) :
    (popSmallestFit req fl).isSome = true := by
  induction fl with
  | nil => simp at hx
  | cons r rest ih =>
      rcases List.mem_cons.1 hx with rfl | hmem
      · cases hr : popSmallestFit req rest with
        | none => simp [popSmallestFit, hr, hfit]
        | some p =>
            rcases p with ⟨b, rest2⟩
            by_cases hc : req ≤ x.capacity ∧ x.capacity ≤ b.capacity
            · simp [popSmallestFit, hr, hc]
            · simp [popSmallestFit, hr, hc]
      · have := ih hmem
        cases hr : popSmallestFit req rest with
        | none => rw [hr] at this; simp at this
        | some p =>
            rcases p with ⟨b, rest2⟩
            by_cases hc : req ≤ r.capacity ∧ r.capacity ≤ b.capacity
            · simp [popSmallestFit, hr, hc]
            · simp [popSmallestFit, hr, hc]

theorem popSmallestFit_fits (req : Nat) (fl : List MacroArgs)
    (b : MacroArgs) (rest : List MacroArgs)
    (h : popSmallestFit req fl = some (b, rest)) : req ≤ b.capacity := by
  induction fl generalizing b rest with
  | nil => simp [popSmallestFit] at h
  | cons r tl ih =>
      cases hr : popSmallestFit req tl with
      | none =>
          simp only [popSmallestFit, hr] at h
          by_cases hc : req ≤ r.capacity
          · simp [hc] at h
            rw [← h.1]
            exact hc
          · simp [hc] at h
      | some p =>
          rcases p with ⟨b2, rest2⟩
          simp only [popSmallestFit, hr] at h
          by_cases hc : req ≤ r.capacity ∧ r.capacity ≤ b2.capacity
          · simp [hc] at h
            rw [← h.1]
            exact hc.1
          · simp [hc] at h
            rw [← h.1]
            exact ih b2 rest2 hr

theorem popSmallestFit_perm (req : Nat) (fl : List MacroArgs)
    (b : MacroArgs) (rest : List MacroArgs)
    (h : popSmallestFit req fl = some (b, rest)) :
    List.Perm fl (b :: rest) := by
  induction fl generalizing b rest with
  | nil => simp [popSmallestFit] at h
  | cons r tl ih =>
      cases hr : popSmallestFit req tl with
      | none =>
          simp only [popSmallestFit, hr] at h
          by_cases hc : req ≤ r.capacity
          · simp [hc] at h
            rw [← h.1, ← h.2]
          · simp [hc] at h
      | some p =>
          rcases p with ⟨b2, rest2⟩
          simp only [popSmallestFit, hr] at h
          by_cases hc : req ≤ r.capacity ∧ r.capacity ≤ b2.capacity
          · simp [hc] at h
            rw [← h.1, ← h.2]
          · simp [hc] at h
            have hperm := ih b2 rest2 hr
            rw [← h.1, ← h.2]
            exact List.Perm.trans (hperm.cons r) (List.Perm.swap b2 r rest2)

theorem popSmallestFit_min (req : Nat) (fl : List MacroArgs)
    (b : MacroArgs) (rest : List MacroArgs)
    (h : popSmallestFit req fl = some (b, rest)) :
    ∀ x ∈ fl, req ≤ x.capacity → b.capacity ≤ x.capacity := by
  induction fl generalizing b rest with
  | nil => simp [popSmallestFit] at h
  | cons r tl ih =>
      intro x hx hxfit
      cases hr : popSmallestFit req tl with
      | none =>
          rcases List.mem_cons.1 hx with rfl | hmem
          · simp only [popSmallestFit, hr] at h
            by_cases hc : req ≤ x.capacity
            · simp [hc] at h
              rw [← h.1]
            · exact absurd hxfit hc
          · have hs := popSmallestFit_isSome_of_mem req tl x hmem hxfit
            rw [hr] at hs
            simp at hs
      | some p =>
          rcases p with ⟨b2, rest2⟩
          simp only [popSmallestFit, hr] at h
          have hb2min := ih b2 rest2 hr
          have hb2fit := popSmallestFit_fits req tl b2 rest2 hr
          by_cases hc : req ≤ r.capacity ∧ r.capacity ≤ b2.capacity
          · simp [hc] at h
            rcases List.mem_cons.1 hx with rfl | hmem
            · rw [← h.1]
            · rw [← h.1]
              exact Nat.le_trans hc.2 (hb2min x hmem hxfit)
          · simp [hc] at h
            rcases List.mem_cons.1 hx with rfl | hmem
            · rw [← h.1]
              rcases Nat.lt_or_ge x.capacity b2.capacity with hlt | hge
              · exact absurd ⟨hxfit, Nat.le_of_lt hlt⟩ hc
              · exact hge
            · rw [← h.1]
              exact hb2min x hmem hxfit

/-! ### Shape of `create` results -/

theorem create_fst (rawToks : List Token) (ve : Bool) (st : PoolState) :
    ∃ cap, (MacroArgs.create rawToks ve st).1 =
      { NumUnexpArgTokens := rawToks.length, VarargsElided := ve,
        PreExpArgTokens := List.replicate (countEofToks rawToks) [],
        StringifiedArgs := List.replicate (countEofToks rawToks) none,
        rawTokens := rawToks, capacity := cap } := by
  cases h : popSmallestFit rawToks.length st.freeList with
  | none => exact ⟨rawToks.length, by simp [MacroArgs.create, h]⟩
  | some p => exact ⟨p.1.capacity, by simp [MacroArgs.create, h]⟩

theorem create_rawTokens (rawToks : List Token) (ve : Bool) (st : PoolState) :
    ((MacroArgs.create rawToks ve st).1).rawTokens = rawToks := by
  rcases create_fst rawToks ve st with ⟨cap, h⟩
  rw [h]

theorem create_varargsElided (rawToks : List Token) (ve : Bool)
    (st : PoolState) :
    ((MacroArgs.create rawToks ve st).1).VarargsElided = ve := by
  rcases create_fst rawToks ve st with ⟨cap, h⟩
  rw [h]

theorem create_cachesEmpty (rawToks : List Token) (ve : Bool)
    (st : PoolState) :
    ((MacroArgs.create rawToks ve st).1).cachesEmpty = true := by
  rcases create_fst rawToks ve st with ⟨cap, h⟩
  rw [h]
  simp only [MacroArgs.cachesEmpty, Bool.and_eq_true]
  exact ⟨all_replicate _ rfl, all_replicate _ rfl⟩

/-! ### Cache hit/miss behaviour -/

theorem getPreExpArgument_hit (r : MacroArgs) (i : Nat)
    (expand : List Token → List Token)
    (h : (r.PreExpArgTokens.getD i []).isEmpty = false) :
    r.getPreExpArgument i expand = (r.PreExpArgTokens.getD i [], r, 0) := by
  unfold MacroArgs.getPreExpArgument
  simp [h]
  intro he
  rw [← List.getD_eq_getElem?_getD] at he
  rw [he] at h
  simp at h

theorem getPreExpArgument_miss (r : MacroArgs) (i : Nat)
    (expand : List Token → List Token)
    (h : (r.PreExpArgTokens.getD i []).isEmpty = true) :
    r.getPreExpArgument i expand =
      (expand (takeUntilEof (dropRuns i r.rawTokens)) ++ [eofTok],
       { r with PreExpArgTokens :=
          r.PreExpArgTokens.set i (expand (takeUntilEof (dropRuns i r.rawTokens)) ++ [eofTok]) },
       1) := by
  unfold MacroArgs.getPreExpArgument
  simp [h]
  rw [← List.getD_eq_getElem?_getD]
  exact List.isEmpty_iff.1 h

theorem getStringifiedArgument_hit (r : MacroArgs) (i : Nat)
    (ac : Token → Token → Bool) (l1 l2 : Nat) (t : Token)
    (h : r.StringifiedArgs.getD i none = some t) :
    r.getStringifiedArgument i ac l1 l2 = (t, r) := by
  unfold MacroArgs.getStringifiedArgument
  rw [h]

theorem getStringifiedArgument_miss (r : MacroArgs) (i : Nat)
    (ac : Token → Token → Bool) (l1 l2 : Nat)
    (h : r.StringifiedArgs.getD i none = none) :
    r.getStringifiedArgument i ac l1 l2 =
      ((MacroArgs.StringifyArgument (dropRuns i r.rawTokens) ac false l1 l2).1,
       { r with StringifiedArgs :=
          r.StringifiedArgs.set i (some (MacroArgs.StringifyArgument (dropRuns i r.rawTokens) ac false l1 l2).1) }) := by
  unfold MacroArgs.getStringifiedArgument
  rw [h]

/-! ### Concrete tokens for witnesses and examples -/

/-- Identifier token `a`. -/
def tokA : Token :=
  { spelling := "a", kind := TokenKind.ident, hasLeadingSpace := false,
    locStart := 0, locEnd := 0 }

/-- Punctuator token `+`, preceded by whitespace. -/
def tokPlus : Token :=
  { spelling := "+", kind := TokenKind.punct, hasLeadingSpace := true,
    locStart := 0, locEnd := 0 }

/-- Identifier token `b`, preceded by whitespace. -/
def tokB : Token :=
  { spelling := "b", kind := TokenKind.ident, hasLeadingSpace := true,
    locStart := 0, locEnd := 0 }

/-- String-literal token with spelling `"x"`. -/
def tokStrX : Token :=
  { spelling := "\"x\"", kind := TokenKind.stringLit, hasLeadingSpace := false,
    locStart := 0, locEnd := 0 }

/-- A stray-backslash token: stringizing it produces text ending in an
unescaped backslash, a malformed literal. -/
def tokBackslash : Token :=
  { spelling := "\\", kind := TokenKind.punct, hasLeadingSpace := false,
    locStart := 0, locEnd := 0 }

/-- Paste-safety oracle that never requests an extra space. -/
def noPaste : Token → Token → Bool := fun _ _ => false

/-- A retired one-argument record with buffer capacity 2, for pool
witnesses. -/
def pooledRec : MacroArgs :=
  { NumUnexpArgTokens := 2, VarargsElided := false,
    PreExpArgTokens := [[]], StringifiedArgs := [none],
    rawTokens := [tokA, eofTok], capacity := 2 }

/-! ### Claim theorems -/

/-- C1: evaluation of the code at the failing input.  For an invocation of a
macro of declared arity 1 whose single argument is the one token `a`, the
raw buffer is `[a, EOF]`, so `getNumArguments` — whose body (src line 110)
returns the `NumUnexpArgTokens` field, documented (src lines 34-38) as the
count of all argument tokens concatenated together with an EOF marker per
argument — returns 2, while the invocation supplies 1 argument (one EOF
marker in the buffer).  This contradicts the claim (and the function's own
doc comment, src lines 106-107, "Return the number of arguments passed into
this macro invocation"): the accessor does not return the declared arity K
whenever any argument is nonempty. -/
theorem getNumArguments_counts_tokens_not_arity :
    (MacroArgs.create (flattenArgs [[tokA]]) false emptyPool).1.getNumArguments = 2 ∧
    countEofToks (flattenArgs [[tokA]]) = 1 ∧
    (MacroArgs.create (flattenArgs [[tokA]]) false emptyPool).1.getNumArguments ≠
      countEofToks (flattenArgs [[tokA]]) := by
  refine ⟨rfl, rfl, ?_⟩
  decide

/-- C2: for every Argument Record built from EOF-free argument runs and
every index `i < argumentCount`, `getArgLength (getUnexpArgument record i)`
is exactly the number of tokens originally supplied for argument `i`,
excluding its EOF marker. -/
theorem getArgLength_getUnexpArgument_exact (args : List (List Token))
    (ve : Bool) (st : PoolState) (i : Nat) (hi : i < args.length)
    (hfree : argsEofFree args = true) :
    MacroArgs.getArgLength
      (((MacroArgs.create (flattenArgs args) ve st).1).getUnexpArgument i) =
      (args.get ⟨i, hi⟩).length := by
  unfold MacroArgs.getUnexpArgument
  rw [create_rawTokens]
  exact getArgLength_dropRuns_flattenArgs args i hi hfree

/-- Witness for C2 at a concrete two-argument invocation `(a, a + b)`. -/
theorem getArgLength_getUnexpArgument_exact_spot :
    MacroArgs.getArgLength
      (((MacroArgs.create (flattenArgs [[tokA], [tokA, tokPlus, tokB]]) false
        emptyPool).1).getUnexpArgument 1) = 3 := by
  have h := getArgLength_getUnexpArgument_exact [[tokA], [tokA, tokPlus, tokB]]
    false emptyPool 1 (by decide) (by decide)
  simpa using h

/-- C10: `isVarargsElidedUse` returns the recorded flag (src lines 114-122),
and the flag — per its field documentation, src lines 40-45 — is false not
only when the invocation supplied tokens (even an empty-but-present
argument) for the "..." parameter or the macro is not C99-variadic, but also
when, in strict mode, the C99 varargs macro had only a "..." argument. -/
theorem isVarargsElidedUse_false_cases (c99 supplied strict onlyVar : Bool)
    (raw : List Token) (st : PoolState)
    (h : supplied = true ∨ c99 = false ∨ (strict = true ∧ onlyVar = true)) :
    (MacroArgs.create raw (varargsElidedFlag c99 supplied strict onlyVar)
      st).1.isVarargsElidedUse = false := by
  show (MacroArgs.create raw (varargsElidedFlag c99 supplied strict onlyVar)
    st).1.VarargsElided = false
  rw [create_varargsElided]
  rcases h with h | h | ⟨h1, h2⟩
  · subst h
    simp [varargsElidedFlag]
  · subst h
    simp [varargsElidedFlag]
  · subst h1
    subst h2
    simp [varargsElidedFlag]

/-- Witness for C10 at the strict-mode case the spec's iff-definition does
not mention: a C99 varargs macro with only a "..." argument and zero tokens
supplied for it, in strict mode. -/
theorem isVarargsElidedUse_false_cases_spot :
    (MacroArgs.create (flattenArgs [[]]) (varargsElidedFlag true false true
      true) emptyPool).1.isVarargsElidedUse = false :=
  isVarargsElidedUse_false_cases true false true true (flattenArgs [[]])
    emptyPool (Or.inr (Or.inr ⟨rfl, rfl⟩))

/-- C3: `getPreExpArgument` is idempotent per index: for a valid index, a
second call for the same index returns the identical token sequence and
record, invoking the expansion engine zero times (a pure cache hit); and
when the cache entry is already present the first call performs no
expansion work and leaves the record unchanged, so the entry is populated
at most once per record lifetime. -/
theorem getPreExpArgument_idempotent (r : MacroArgs) (i : Nat)
    (expand : List Token → List Token)
    (hi : i < r.PreExpArgTokens.length) :
    ((r.getPreExpArgument i expand).2.1.getPreExpArgument i expand).1 =
      (r.getPreExpArgument i expand).1 ∧
    ((r.getPreExpArgument i expand).2.1.getPreExpArgument i expand).2.1 =
      (r.getPreExpArgument i expand).2.1 ∧
    ((r.getPreExpArgument i expand).2.1.getPreExpArgument i expand).2.2 = 0 ∧
    (r.PreExpArgTokens.getD i [] ≠ [] →
      (r.getPreExpArgument i expand).2.2 = 0 ∧
      (r.getPreExpArgument i expand).2.1 = r ∧
      (r.getPreExpArgument i expand).1 = r.PreExpArgTokens.getD i []) := by
  by_cases hc : (r.PreExpArgTokens.getD i []).isEmpty = true
  · have h1 := getPreExpArgument_miss r i expand hc
    set res := expand (takeUntilEof (dropRuns i r.rawTokens)) ++ [eofTok] with hres
    set r1 : MacroArgs :=
      { r with PreExpArgTokens := r.PreExpArgTokens.set i res } with hr1
    have hget : r1.PreExpArgTokens.getD i [] = res := getD_set_self _ i res [] hi
    have hne : res.isEmpty = false := by
      rw [hres]
      simp
    have h2 := getPreExpArgument_hit r1 i expand (by rw [hget]; exact hne)
    rw [h1, h2, hget]
    refine ⟨rfl, rfl, rfl, ?_⟩
    intro habs
    exact absurd (List.isEmpty_iff.1 hc) habs
  · have hc2 : (r.PreExpArgTokens.getD i []).isEmpty = false :=
      Bool.not_eq_true _ ▸ Bool.eq_false_iff.2 hc
    have h1 := getPreExpArgument_hit r i expand hc2
    rw [h1]
    exact ⟨by rw [h1], by rw [h1], by rw [h1], fun _ => ⟨rfl, rfl, rfl⟩⟩

/-- Witness for C3 at a concrete one-argument record with an unpopulated
cache and the identity expansion engine. -/
theorem getPreExpArgument_idempotent_spot :
    (((MacroArgs.create (flattenArgs [[tokA]]) false
        emptyPool).1.getPreExpArgument 0 id).2.1.getPreExpArgument 0 id).2.2
      = 0 :=
  (getPreExpArgument_idempotent
    (MacroArgs.create (flattenArgs [[tokA]]) false emptyPool).1 0 id
    (by decide)).2.2.1

/-- C7: once `getStringifiedArgument` has produced the token for index `i`,
every later call for `i` returns the cached token and leaves the record
unchanged, whatever its source-location arguments; in particular two later
calls that differ only in `locStart`/`locEnd` return the identical token. -/
theorem getStringifiedArgument_ignores_later_locations (r : MacroArgs)
    (i : Nat) (ac : Token → Token → Bool) (a b l1 l2 l3 l4 : Nat)
    (hi : i < r.StringifiedArgs.length) :
    ((r.getStringifiedArgument i ac a b).2.getStringifiedArgument i ac l1 l2) =
      ((r.getStringifiedArgument i ac a b).1,
       (r.getStringifiedArgument i ac a b).2) ∧
    ((r.getStringifiedArgument i ac a b).2.getStringifiedArgument i ac l1 l2).1 =
      ((r.getStringifiedArgument i ac a b).2.getStringifiedArgument i ac l3 l4).1 := by
  cases hc : r.StringifiedArgs.getD i none with
  | some t =>
      have h1 := getStringifiedArgument_hit r i ac a b t hc
      rw [h1]
      have h2 := getStringifiedArgument_hit r i ac l1 l2 t hc
      have h3 := getStringifiedArgument_hit r i ac l3 l4 t hc
      rw [h2, h3]
      exact ⟨rfl, rfl⟩
  | none =>
      have h1 := getStringifiedArgument_miss r i ac a b hc
      set t0 := (MacroArgs.StringifyArgument (dropRuns i r.rawTokens) ac false
        a b).1 with ht0
      set r1 : MacroArgs :=
        { r with StringifiedArgs := r.StringifiedArgs.set i (some t0) } with hr1
      have hget : r1.StringifiedArgs.getD i none = some t0 :=
        getD_set_self _ i (some t0) none hi
      have h2 := getStringifiedArgument_hit r1 i ac l1 l2 t0 hget
      have h3 := getStringifiedArgument_hit r1 i ac l3 l4 t0 hget
      rw [h1, h2, h3]
      exact ⟨rfl, rfl⟩

/-- Witness for C7: a record whose argument 0 is the single token `a`,
first stringized with range (3, 7), then re-queried with ranges (11, 12)
and (99, 100). -/
theorem getStringifiedArgument_ignores_later_locations_spot :
    (((MacroArgs.create (flattenArgs [[tokA]]) false
        emptyPool).1.getStringifiedArgument 0 noPaste 3 7).2.getStringifiedArgument
        0 noPaste 11 12).1 =
      (((MacroArgs.create (flattenArgs [[tokA]]) false
        emptyPool).1.getStringifiedArgument 0 noPaste 3 7).2.getStringifiedArgument
        0 noPaste 99 100).1 :=
  (getStringifiedArgument_ignores_later_locations
    (MacroArgs.create (flattenArgs [[tokA]]) false emptyPool).1 0 noPaste
    3 7 11 12 99 100 (by decide)).2

/-- C4: stringizing concatenates the tokens' spellings in order with exactly
one space between adjacent tokens that were whitespace-separated or unsafe
to paste; every backslash and double quote inside a string- or
character-literal spelling is escaped with a preceding backslash; the
well-formed result is the escaped body wrapped in double quotes as one
string-literal token (single quotes and a character-literal token when
`charify` is set), carrying the given source range.  Concretely, stringizing
`a + b` yields spelling `"a + b"`, stringizing the literal token `"x"`
yields spelling `"\"x\""`, and charify mode on the identifier `a` yields a
character-literal token. -/
theorem StringifyArgument_spec :
    (∀ (ts : List Token) (ac : Token → Token → Bool) (c : Bool) (l1 l2 : Nat),
      trailingBackslashes (stringifyBody ac ts) % 2 = 0 →
      (MacroArgs.StringifyArgument ts ac c l1 l2).1.spelling =
        (if c then squote else dquote) ++ stringifyBody ac ts ++
          (if c then squote else dquote)) ∧
    (∀ (ts : List Token) (ac : Token → Token → Bool) (c : Bool) (l1 l2 : Nat),
      (MacroArgs.StringifyArgument ts ac c l1 l2).1.kind =
        (if c then TokenKind.charLit else TokenKind.stringLit) ∧
      (MacroArgs.StringifyArgument ts ac c l1 l2).1.locStart = l1 ∧
      (MacroArgs.StringifyArgument ts ac c l1 l2).1.locEnd = l2) ∧
    (∀ (ch : Char) (cs : List Char),
      escapeChars (ch :: cs) =
        (if ch = '\\' ∨ ch = '"' then ['\\', ch] else [ch]) ++ escapeChars cs) ∧
    (∀ (ac : Token → Token → Bool) (prev t : Token) (ts : List Token),
      t.kind ≠ TokenKind.eof →
      stringifyLoop ac prev (t :: ts) =
        (if t.hasLeadingSpace || ac prev t then " " else "") ++
          tokenStringText t ++ stringifyLoop ac t ts) ∧
    (MacroArgs.StringifyArgument [tokA, tokPlus, tokB, eofTok] noPaste false
      3 7).1.spelling = "\"a + b\"" ∧
    (MacroArgs.StringifyArgument [tokStrX, eofTok] noPaste false 0
      0).1.spelling = "\"\\\"x\\\"\"" ∧
    (MacroArgs.StringifyArgument [tokA, eofTok] noPaste true 0 0).1.kind =
      TokenKind.charLit ∧
    (MacroArgs.StringifyArgument [tokA, eofTok] noPaste true 0 0).1.spelling =
      squote ++ "a" ++ squote := by
  refine ⟨?_, ?_, ?_, ?_, by decide, by decide, by decide, by decide⟩
  · intro ts ac c l1 l2 h
    unfold MacroArgs.StringifyArgument
    simp [h]
  · intro ts ac c l1 l2
    unfold MacroArgs.StringifyArgument
    exact ⟨rfl, rfl, rfl⟩
  · intro ch cs
    by_cases h : ch = '\\' ∨ ch = '"'
    · simp [escapeChars, h]
    · simp [escapeChars, h]
  · intro ac prev t ts h
    simp [stringifyLoop, h]

/-- Witness for C4's quantified conjuncts at the `a + b` run. -/
theorem StringifyArgument_spec_spot :
    (MacroArgs.StringifyArgument [tokA, tokPlus, tokB, eofTok] noPaste false
      3 7).1.spelling =
      dquote ++ stringifyBody noPaste [tokA, tokPlus, tokB, eofTok] ++ dquote ∧
    (MacroArgs.StringifyArgument [tokA, tokPlus, tokB, eofTok] noPaste false
      3 7).1.locStart = 3 := by
  have h1 := StringifyArgument_spec.1 [tokA, tokPlus, tokB, eofTok] noPaste
    false 3 7 (by decide)
  have h2 := (StringifyArgument_spec.2.1 [tokA, tokPlus, tokB, eofTok]
    noPaste false 3 7).2.1
  exact ⟨by simpa using h1, h2⟩

/-- C8: on input whose concatenated escaped text ends in an unescaped
backslash (a malformed literal, e.g. produced by a stray-backslash token of
an unterminated literal), stringizing reports the recoverable diagnostic to
the external sink and still returns a best-effort result token — the
trimmed text, wrapped as usual — rather than aborting. -/
theorem StringifyArgument_malformed_recovers (ts : List Token)
    (ac : Token → Token → Bool) (c : Bool) (l1 l2 : Nat)
    (h : trailingBackslashes (stringifyBody ac ts) % 2 = 1) :
    (MacroArgs.StringifyArgument ts ac c l1 l2).2 = [PPDiag.invalidLiteral] ∧
    (MacroArgs.StringifyArgument ts ac c l1 l2).1.kind =
      (if c then TokenKind.charLit else TokenKind.stringLit) ∧
    (MacroArgs.StringifyArgument ts ac c l1 l2).1.spelling =
      (if c then squote else dquote) ++
        String.mk (stringifyBody ac ts).data.dropLast ++
        (if c then squote else dquote) := by
  unfold MacroArgs.StringifyArgument
  simp [h]

/-- Witness for C8: stringizing the single stray-backslash token. -/
theorem StringifyArgument_malformed_recovers_spot :
    (MacroArgs.StringifyArgument [tokBackslash, eofTok] noPaste false 0
      0).2 = [PPDiag.invalidLiteral] ∧
    (MacroArgs.StringifyArgument [tokBackslash, eofTok] noPaste false 0
      0).1.kind = TokenKind.stringLit := by
  have h := StringifyArgument_malformed_recovers [tokBackslash, eofTok]
    noPaste false 0 0 (by decide)
  exact ⟨h.1, by simpa using h.2.1⟩

/-- C5: `destroy` clears both caches and pushes the record onto the
free-list head without releasing its buffer (same `rawTokens` and
`capacity`); a subsequent `create` requesting capacity at most the retired
record's capacity allocates no fresh buffer (the fresh-allocation count is
unchanged and one pooled record is consumed) and the returned record has
both caches empty. -/
theorem destroy_then_create_reuses_pool (r : MacroArgs) (st : PoolState)
    (rawToks : List Token) (ve : Bool)
    (hcap : rawToks.length ≤ r.capacity) :
    (r.destroy st).freeList = r.clearCaches :: st.freeList ∧
    (r.destroy st).freshAllocs = st.freshAllocs ∧
    r.clearCaches.capacity = r.capacity ∧
    r.clearCaches.rawTokens = r.rawTokens ∧
    r.clearCaches.cachesEmpty = true ∧
    (MacroArgs.create rawToks ve (r.destroy st)).2.freshAllocs =
      st.freshAllocs ∧
    (MacroArgs.create rawToks ve (r.destroy st)).2.freeList.length =
      st.freeList.length ∧
    (MacroArgs.create rawToks ve (r.destroy st)).1.cachesEmpty = true := by
  have hclear : r.clearCaches.cachesEmpty = true := by
    simp only [MacroArgs.clearCaches, MacroArgs.cachesEmpty, Bool.and_eq_true]
    exact ⟨all_replicate _ rfl, all_replicate _ rfl⟩
  have hfit : rawToks.length ≤ r.clearCaches.capacity := hcap
  have hsome := popSmallestFit_isSome_of_mem rawToks.length
    (r.clearCaches :: st.freeList) r.clearCaches (List.mem_cons_self _ _) hfit
  refine ⟨rfl, rfl, rfl, rfl, hclear, ?_, ?_, create_cachesEmpty _ _ _⟩
  · cases hp : popSmallestFit rawToks.length (r.clearCaches :: st.freeList) with
    | none => rw [hp] at hsome; simp at hsome
    | some p =>
        rcases p with ⟨b, rest⟩
        simp [MacroArgs.create, MacroArgs.destroy, hp]
  · cases hp : popSmallestFit rawToks.length (r.clearCaches :: st.freeList) with
    | none => rw [hp] at hsome; simp at hsome
    | some p =>
        rcases p with ⟨b, rest⟩
        have hperm := popSmallestFit_perm rawToks.length
          (r.clearCaches :: st.freeList) b rest hp
        have hlen := hperm.length_eq
        simp only [List.length_cons] at hlen
        simp only [MacroArgs.create, MacroArgs.destroy, hp]
        omega

/-- Witness for C5: retire the concrete one-argument record `pooledRec` into
an empty pool, then create a record for the same-size buffer `[a, EOF]`. -/
theorem destroy_then_create_reuses_pool_spot :
    (MacroArgs.create (flattenArgs [[tokA]]) false
      (pooledRec.destroy emptyPool)).2.freshAllocs = 0 ∧
    (MacroArgs.create (flattenArgs [[tokA]]) false
      (pooledRec.destroy emptyPool)).1.cachesEmpty = true := by
  have h := destroy_then_create_reuses_pool pooledRec emptyPool
    (flattenArgs [[tokA]]) false (by decide)
  exact ⟨h.2.2.2.2.2.1, h.2.2.2.2.2.2.2⟩

/-- C6: `create` is always served from the free list when a sufficiently
large retired record exists: it removes from the list a qualifying record of
the smallest buffer capacity and performs no fresh allocation; only when no
retired record fits does it allocate a fresh record sized exactly to the
required capacity, leaving the free list untouched. -/
theorem create_freeList_policy (rawToks : List Token) (ve : Bool)
    (st : PoolState) :
    ((∃ x ∈ st.freeList, rawToks.length ≤ x.capacity) →
      (MacroArgs.create rawToks ve st).2.freshAllocs = st.freshAllocs ∧
      (MacroArgs.create rawToks ve st).2.freeList.length + 1 =
        st.freeList.length ∧
      rawToks.length ≤ (MacroArgs.create rawToks ve st).1.capacity ∧
      (∃ x ∈ st.freeList,
        (MacroArgs.create rawToks ve st).1.capacity = x.capacity ∧
        rawToks.length ≤ x.capacity) ∧
      (∀ x ∈ st.freeList, rawToks.length ≤ x.capacity →
        (MacroArgs.create rawToks ve st).1.capacity ≤ x.capacity)) ∧
    ((∀ x ∈ st.freeList, x.capacity < rawToks.length) →
      (MacroArgs.create rawToks ve st).2.freshAllocs = st.freshAllocs + 1 ∧
      (MacroArgs.create rawToks ve st).2.freeList = st.freeList ∧
      (MacroArgs.create rawToks ve st).1.capacity = rawToks.length) := by
  constructor
  · rintro ⟨x, hx, hxfit⟩
    have hsome := popSmallestFit_isSome_of_mem rawToks.length st.freeList x
      hx hxfit
    cases hp : popSmallestFit rawToks.length st.freeList with
    | none => rw [hp] at hsome; simp at hsome
    | some p =>
        rcases p with ⟨b, rest⟩
        have hbfit := popSmallestFit_fits rawToks.length st.freeList b rest hp
        have hperm := popSmallestFit_perm rawToks.length st.freeList b rest hp
        have hbmem : b ∈ st.freeList := hperm.mem_iff.2 (List.mem_cons_self _ _)
        have hmin := popSmallestFit_min rawToks.length st.freeList b rest hp
        have hlen := hperm.length_eq
        simp only [List.length_cons] at hlen
        refine ⟨?_, ?_, ?_, ⟨b, hbmem, ?_, hbfit⟩, ?_⟩
        · simp [MacroArgs.create, hp]
        · simp only [MacroArgs.create, hp]
          omega
        · simp only [MacroArgs.create, hp]
          exact hbfit
        · simp [MacroArgs.create, hp]
        · intro y hy hyfit
          simp only [MacroArgs.create, hp]
          exact hmin y hy hyfit
  · intro hall
    have hp := popSmallestFit_none_of_all rawToks.length st.freeList hall
    exact ⟨by simp [MacroArgs.create, hp], by simp [MacroArgs.create, hp],
      by simp [MacroArgs.create, hp]⟩

/-- Witness for C6, covering both branches: a pool holding the retired
record `pooledRec` (capacity 2) serves a 2-token request without a fresh
allocation, and an empty pool forces a fresh allocation of exactly the
requested size. -/
theorem create_freeList_policy_spot :
    (MacroArgs.create (flattenArgs [[tokA]]) false
      { freeList := [pooledRec], freshAllocs := 0 }).2.freshAllocs = 0 ∧
    (MacroArgs.create (flattenArgs [[tokA]]) false
      emptyPool).2.freshAllocs = 1 ∧
    (MacroArgs.create (flattenArgs [[tokA]]) false emptyPool).1.capacity =
      2 := by
  have h1 := (create_freeList_policy (flattenArgs [[tokA]]) false
    { freeList := [pooledRec], freshAllocs := 0 }).1
    ⟨pooledRec, List.mem_cons_self _ _, by decide⟩
  have h2 := (create_freeList_policy (flattenArgs [[tokA]]) false
    emptyPool).2 (by intro x hx; simp [emptyPool] at hx)
  exact ⟨h1.1, h2.1, h2.2.2⟩

/-- C9: the data-model invariants hold after every lifecycle operation:
`create` (from correctly EOF-delimited input) establishes them, and the
record transforms of `destroy` (cache clearing), `getPreExpArgument` and
`getStringifiedArgument` preserve them — the buffer length equals the sum
over arguments of argument length plus one, each present pre-expansion
entry is non-empty (presence is nonemptiness) and EOF-terminated, and each
stringized entry holds exactly one token (by the `Option Token` type of the
cache). -/
theorem lifecycle_preserves_invariants (args : List (List Token)) (ve : Bool)
    (st : PoolState) (r : MacroArgs) (i : Nat)
    (expand : List Token → List Token) (ac : Token → Token → Bool)
    (l1 l2 : Nat) :
    (argsEofFree args = true →
      (MacroArgs.create (flattenArgs args) ve st).1.WF) ∧
    (r.WF → r.clearCaches.WF) ∧
    (r.WF → ((r.getPreExpArgument i expand).2.1).WF) ∧
    (r.WF → ((r.getStringifiedArgument i ac l1 l2).2).WF) := by
  refine ⟨?_, ?_, ?_, ?_⟩
  · intro hfree
    rcases create_fst (flattenArgs args) ve st with ⟨cap, hc⟩
    rw [hc]
    refine ⟨?_, rfl, ?_, ?_, ?_⟩
    · show (flattenArgs args).length =
        sumPlusOne (argumentLengths (flattenArgs args))
      rw [argumentLengths_flattenArgs args hfree, length_flattenArgs]
    · simp
    · simp
    · exact all_replicate _ rfl
  · rintro ⟨h1, h2, h3, h4, h5⟩
    refine ⟨h1, h2, ?_, ?_, ?_⟩
    · simpa [MacroArgs.clearCaches] using h3
    · simpa [MacroArgs.clearCaches] using h4
    · simp only [MacroArgs.clearCaches]
      exact all_replicate _ rfl
  · rintro hwf
    by_cases hc : (r.PreExpArgTokens.getD i []).isEmpty = true
    · rw [getPreExpArgument_miss r i expand hc]
      rcases hwf with ⟨h1, h2, h3, h4, h5⟩
      refine ⟨h1, h2, ?_, h4, ?_⟩
      · simpa using h3
      · apply all_set i h5
        simp only [preExpEntryOK]
        rw [List.getLast?_concat]
        simp [eofTok]
    · have hc2 : (r.PreExpArgTokens.getD i []).isEmpty = false :=
        Bool.not_eq_true _ ▸ Bool.eq_false_iff.2 hc
      rw [getPreExpArgument_hit r i expand hc2]
      exact hwf
  · rintro hwf
    cases hs : r.StringifiedArgs.getD i none with
    | some t =>
        rw [getStringifiedArgument_hit r i ac l1 l2 t hs]
        exact hwf
    | none =>
        rw [getStringifiedArgument_miss r i ac l1 l2 hs]
        rcases hwf with ⟨h1, h2, h3, h4, h5⟩
        refine ⟨h1, h2, h3, ?_, h5⟩
        simpa using h4

/-- Witness for C9: the invariants hold for the record created for the
one-argument invocation `(a)` and are kept by clearing its caches. -/
theorem lifecycle_preserves_invariants_spot :
    (MacroArgs.create (flattenArgs [[tokA]]) false emptyPool).1.WF ∧
    ((MacroArgs.create (flattenArgs [[tokA]]) false
      emptyPool).1.clearCaches).WF := by
  have h := lifecycle_preserves_invariants [[tokA]] false emptyPool
    (MacroArgs.create (flattenArgs [[tokA]]) false emptyPool).1 0 id noPaste
    0 0
  exact ⟨h.1 (by decide), h.2.1 (h.1 (by decide))⟩

end MacroArgsModel
